import Mathlib

/-!
Verification of the incremental sorting engine of `priority-sorter`
(`src/sorter.rs`).  The engine is a resumable binary-insertion sort whose
comparisons are supplied externally: `start_sorting` seeds the state,
`make_choice` consumes one external decision, `finish_sorting` extracts the
best available ordering.  The Rust code is embedded shallowly below:
`Vec<T>` becomes `List T` with the same element order (index i of the
vector is index i of the list, `Vec::last`/`Vec::pop` act on the list's
last element), `Box<T>` is erased (it is pure indirection), and the three
`&mut self` methods become pure functions on `SortState`.
-/

namespace PrioritySorter

/-- The two external decisions (`enum Choice { Left, Right }` in
`sorter.rs`).  `Left` means the current candidate outranks the pivot
(candidate-wins), `Right` means the pivot outranks the candidate. -/
inductive Choice where
  | Left
  | Right
deriving DecidableEq, Repr

/-- `enum SortState<T>` from `sorter.rs`.  In `Compare`, `unsorted` is the
stack of not-yet-inserted items (the current candidate is its last
element, matching `Vec::last`), `sorted` is the descending order built so
far, and `[lo, hi)` is the binary-search window into `sorted`. -/
inductive SortState (T : Type) where
  | Empty
  | Compare (unsorted : List T) (sorted : List T) (lo : Nat) (hi : Nat)
  | Done (sorted : List T)
deriving DecidableEq, Repr

variable {T : Type}

/-- `Sorter::start_sorting`.  Zero items give `Empty`, one item gives
`Done` immediately; otherwise the first item seeds `sorted`, the rest
become `unsorted` in input order (so the last input element is on top of
the stack), and the window is `[0, 1)`.  The `none` arm mirrors the
unreachable `None` arm of the Rust `match iter.next()`. -/
def start_sorting (items : List T) : SortState T :=
  if items.length = 0 then SortState.Empty
  else if items.length = 1 then SortState.Done items
  else
    match items with
    | [] => SortState.Empty
    | first :: rest => SortState.Compare rest [first] 0 ([first].length)

/-- `Sorter::make_choice`.  On `Compare`: compute `mid = (lo + hi) / 2`;
if there is a current candidate (`unsorted.last()`), narrow the window
(`hi = mid` on `Left`, `lo = mid + 1` on `Right`); if the window is still
open, stop; otherwise pop the candidate and insert it into `sorted` at
index `lo`, finishing when `unsorted` becomes empty and otherwise
resetting the window to `[0, sorted.length)`.  On `Empty`/`Done` the call
is a silent no-op (`SortState::Empty | SortState::Done { .. } => ()`).
`List.insertIdx` agrees with `Vec::insert` whenever the index is in range
(which reachable states guarantee); out of range, `Vec::insert` panics
while `List.insertIdx` returns the list unchanged. -/
def make_choice (choice : Choice) (s : SortState T) : SortState T :=
  match s with
  | SortState.Compare unsorted sorted lo hi =>
    let mid := (lo + hi) / 2
    match unsorted.getLast? with
    | none => SortState.Done sorted
    | some _ =>
      let lo2 := match choice with
        | Choice.Left => lo
        | Choice.Right => mid + 1
      let hi2 := match choice with
        | Choice.Left => mid
        | Choice.Right => hi
      if lo2 < hi2 then SortState.Compare unsorted sorted lo2 hi2
      else
        match unsorted.getLast? with
        | none => SortState.Done sorted
        | some x =>
          let rest := unsorted.dropLast
          let sorted2 := List.insertIdx lo2 x sorted
          if rest.isEmpty then SortState.Done sorted2
          else SortState.Compare rest sorted2 0 sorted2.length
  | SortState.Empty => SortState.Empty
  | SortState.Done sorted => SortState.Done sorted

/-- `Sorter::finish_sorting`.  Writes into the caller's buffer `out`:
the final order on `Done`, nothing on `Empty` (the buffer keeps its old
contents), and `sorted ++ unsorted` (the settled prefix followed by the
pending vector in its internal bottom-to-top order) on `Compare`.  The
Rust method reads `&self.state` and never assigns it, which the embedding
reflects by returning only the new buffer contents. -/
def finish_sorting (s : SortState T) (out : List T) : List T :=
  match s with
  | SortState.Done sorted => sorted
  | SortState.Empty => out
  | SortState.Compare unsorted sorted _ _ => sorted ++ unsorted

/-- The items currently held by the state: `sorted ++ unsorted` during a
run, `sorted` when done, nothing when empty. -/
def contents : SortState T → List T
  | SortState.Empty => []
  | SortState.Compare unsorted sorted _ _ => sorted ++ unsorted
  | SortState.Done sorted => sorted

/-- Whether the state is `Done`. -/
def isDone : SortState T → Bool
  | SortState.Done _ => true
  | _ => false

/-- Whether the state is `Empty`. -/
def isEmptyState : SortState T → Bool
  | SortState.Empty => true
  | _ => false

/-- The final order carried by a `Done` state (junk value `[]` otherwise). -/
def doneList : SortState T → List T
  | SortState.Done sorted => sorted
  | _ => []

/-- The current candidate: the top (`Vec::last`) of the pending stack. -/
def currentItem : SortState T → Option T
  | SortState.Compare unsorted _ _ _ => unsorted.getLast?
  | _ => none

/-- The new lower bound after one decision: `lo` on `Left`
(candidate-wins, `hi = mid`), `mid + 1` on `Right` (pivot-wins), with
`mid = (lo + hi) / 2` by integer floor division. -/
def narrowLo (lo hi : Nat) : Choice → Nat
  | Choice.Left => lo
  | Choice.Right => (lo + hi) / 2 + 1

/-- The new upper bound after one decision: `mid` on `Left`, `hi` on
`Right`. -/
def narrowHi (lo hi : Nat) : Choice → Nat
  | Choice.Left => (lo + hi) / 2
  | Choice.Right => hi

/-- The states reachable from `start_sorting items` by any sequence of
`make_choice` calls (and `finish_sorting` calls, which never change the
state). -/
inductive Reachable (items : List T) : SortState T → Prop where
  | start : Reachable items (start_sorting items)
  | step (c : Choice) (s : SortState T) :
      Reachable items s → Reachable items (make_choice c s)

/-- Run the machine for `n` calls of `make_choice`, the `i`-th call using
decision `ds i`. -/
def run (ds : Nat → Choice) : Nat → SortState T → SortState T
  | 0, s => s
  | n + 1, s => run (fun i => ds (i + 1)) n (make_choice (ds 0) s)

/-- The decision an external total order `gt` generates for the current
state: candidate-wins (`Left`) exactly when the candidate outranks the
pivot `sorted[(lo + hi) / 2]`. -/
def oracleChoice (gt : T → T → Bool) (s : SortState T) : Choice :=
  match s with
  | SortState.Compare unsorted sorted lo hi =>
    match unsorted.getLast? with
    | some x => if gt x (sorted.getD ((lo + hi) / 2) x) then Choice.Left else Choice.Right
    | none => Choice.Left
  | _ => Choice.Left

/-- Run the machine for `n` calls of `make_choice`, each decision
generated from the total order `gt`. -/
def oracleRun (gt : T → T → Bool) : Nat → SortState T → SortState T
  | 0, s => s
  | n + 1, s => oracleRun gt n (make_choice (oracleChoice gt s) s)

/-- `Σ_{k=2}^{n} ceil(log2 k)`, the spec's bound on the number of
decisions for an `n`-item run (`Nat.clog 2` is the ceiling base-2
logarithm; the terms `k = 0, 1` contribute `0`). -/
def decisionBound : Nat → Nat
  | 0 => 0
  | n + 1 => decisionBound n + Nat.clog 2 (n + 1)

/-- Worst-case number of decisions still needed after the current
candidate: the `j`-th future candidate is inserted into a sorted list of
length `s + j`, costing at most `Nat.size (s + j)` decisions. -/
def restCost : Nat → Nat → Nat
  | _, 0 => 0
  | s, r + 1 => Nat.size (s + 1) + restCost (s + 1) r

/-- Worst-case number of decisions to drive a state to `Done`:
`Nat.size (hi - lo)` for the current candidate's window plus the cost of
all remaining candidates. -/
def stepsLeft : SortState T → Nat
  | SortState.Compare unsorted sorted lo hi =>
      Nat.size (hi - lo) + restCost sorted.length (unsorted.length - 1)
  | _ => 0

/-- Structural well-formedness of a state: during a run the pending stack
is nonempty, the window is open, and it lies inside `sorted`. -/
def WF : SortState T → Prop
  | SortState.Compare unsorted sorted lo hi =>
      unsorted ≠ [] ∧ lo < hi ∧ hi ≤ sorted.length
  | _ => True

/-! ### Basic state lemmas -/

theorem start_sorting_eq (items : List T) :
    start_sorting items = (match items with
      | [] => SortState.Empty
      | [x] => SortState.Done [x]
      | first :: rest => SortState.Compare rest [first] 0 1) := by
  match items with
  | [] => rfl
  | [x] => rfl
  | a :: b :: t => simp [start_sorting]

theorem run_done (ds : Nat → Choice) (n : Nat) (l : List T) :
    run ds n (SortState.Done l) = SortState.Done l := by
  induction n generalizing ds with
  | zero => rfl
  | succ n ih => exact ih _

theorem oracleRun_done (gt : T → T → Bool) (n : Nat) (l : List T) :
    oracleRun gt n (SortState.Done l) = SortState.Done l := by
  induction n with
  | zero => rfl
  | succ n ih => exact ih

/-- One `make_choice` call on a comparing state whose pending stack is
`rest` with `x` on top: narrow the window, and insert `x` when it
collapses. -/
theorem make_choice_compare_eq (c : Choice) (rest sorted : List T) (x : T)
    (lo hi : Nat) :
    make_choice c (SortState.Compare (rest ++ [x]) sorted lo hi) =
      (if narrowLo lo hi c < narrowHi lo hi c then
        SortState.Compare (rest ++ [x]) sorted (narrowLo lo hi c) (narrowHi lo hi c)
      else if rest.isEmpty then
        SortState.Done (List.insertIdx (narrowLo lo hi c) x sorted)
      else
        SortState.Compare rest (List.insertIdx (narrowLo lo hi c) x sorted) 0
          (List.insertIdx (narrowLo lo hi c) x sorted).length) := by
  have hd : (rest ++ [x]).dropLast = rest := by simp
  cases c <;> simp [make_choice, narrowLo, narrowHi] <;> rw [hd]

/-- Arithmetic facts about one narrowing step on an open window. -/
theorem narrow_bounds (lo hi : Nat) (c : Choice) (h : lo < hi) :
    lo ≤ narrowLo lo hi c ∧ narrowLo lo hi c ≤ narrowHi lo hi c ∧
      narrowHi lo hi c ≤ hi ∧
      narrowHi lo hi c - narrowLo lo hi c ≤ (hi - lo) / 2 ∧
      narrowHi lo hi c - narrowLo lo hi c < hi - lo := by
  cases c <;> simp [narrowLo, narrowHi] <;> omega

/-! ### Counting lemmas: `Nat.size`, `Nat.clog` and the decision bound -/

theorem size_div_two_lt {w : Nat} (hw : 1 ≤ w) : Nat.size (w / 2) < Nat.size w := by
  have hp : 0 < Nat.size w := Nat.size_pos.mpr hw
  have hlt : w < 2 ^ Nat.size w := Nat.lt_size_self w
  have h2 : w / 2 < 2 ^ (Nat.size w - 1) := by
    rw [Nat.div_lt_iff_lt_mul (by omega : 0 < 2)]
    have : 2 ^ Nat.size w = 2 ^ (Nat.size w - 1) * 2 := by
      rw [← Nat.pow_succ]
      congr 1
      omega
    omega
  have := Nat.size_le.mpr h2
  omega

theorem size_lt_of_le_half {w2 w : Nat} (h : w2 ≤ w / 2) (hw : 1 ≤ w) :
    Nat.size w2 < Nat.size w :=
  lt_of_le_of_lt (Nat.size_le_size h) (size_div_two_lt hw)

/-- `Nat.size w` is the ceiling base-2 logarithm of `w + 1`. -/
theorem size_eq_clog (w : Nat) : Nat.size w = Nat.clog 2 (w + 1) := by
  apply le_antisymm
  · rw [Nat.size_le]
    have := Nat.le_pow_clog Nat.one_lt_two (w + 1)
    omega
  · rw [← Nat.le_pow_iff_clog_le Nat.one_lt_two]
    have := Nat.lt_size_self w
    omega

theorem restCost_decisionBound :
    ∀ (r s : Nat), restCost s r + decisionBound (s + 1) = decisionBound (s + r + 1) := by
  intro r
  induction r with
  | zero => intro s; simp [restCost]
  | succ r ih =>
      intro s
      have h1 : decisionBound (s + 1 + 1) = decisionBound (s + 1) + Nat.clog 2 (s + 1 + 1) := rfl
      have h2 : Nat.size (s + 1) = Nat.clog 2 (s + 1 + 1) := size_eq_clog (s + 1)
      have h3 := ih (s + 1)
      simp only [restCost]
      have hgoal : s + 1 + r + 1 = s + (r + 1) + 1 := by omega
      rw [← hgoal, ← h3]
      omega

/-! ### `insertIdx` lemmas -/

theorem insertIdx_eq_take_cons_drop (x : T) :
    ∀ (n : Nat) (l : List T), n ≤ l.length →
      List.insertIdx n x l = l.take n ++ x :: l.drop n := by
  intro n
  induction n with
  | zero => intro l _; simp
  | succ n ih =>
      intro l hl
      match l with
      | [] => simp at hl
      | a :: t =>
          simp only [List.insertIdx_succ_cons, List.take_succ_cons, List.drop_succ_cons,
            List.cons_append, List.cons.injEq, true_and]
          exact ih t (by simpa using hl)

theorem perm_insertIdx (x : T) (n : Nat) (l : List T) (h : n ≤ l.length) :
    List.Perm (List.insertIdx n x l) (x :: l) := by
  rw [insertIdx_eq_take_cons_drop x n l h]
  have hm := @List.perm_middle T x (l.take n) (l.drop n)
  rwa [List.take_append_drop] at hm

theorem exists_concat_of_ne_nil (l : List T) (h : l ≠ []) :
    ∃ rest x, l = rest ++ [x] :=
  ⟨l.dropLast, l.getLast h, (List.dropLast_append_getLast h).symm⟩

/-- One call on a well-formed comparing state keeps the state well
formed, never produces `Empty`, and strictly decreases the decision
budget `stepsLeft`. -/
theorem step_progress (c : Choice) (uns sorted : List T) (lo hi : Nat)
    (h : WF (SortState.Compare uns sorted lo hi)) :
    WF (make_choice c (SortState.Compare uns sorted lo hi)) ∧
      isEmptyState (make_choice c (SortState.Compare uns sorted lo hi)) = false ∧
      stepsLeft (make_choice c (SortState.Compare uns sorted lo hi)) <
        stepsLeft (SortState.Compare uns sorted lo hi) := by
  obtain ⟨hne, hlh, hhl⟩ := h
  obtain ⟨rest, x, rfl⟩ := exists_concat_of_ne_nil _ hne
  rw [make_choice_compare_eq]
  obtain ⟨hb1, hb2, hb3, hb4, hb5⟩ := narrow_bounds lo hi c hlh
  have hwin : 0 < Nat.size (hi - lo) := Nat.size_pos.mpr (by omega)
  by_cases hlt : narrowLo lo hi c < narrowHi lo hi c
  · simp only [if_pos hlt]
    refine ⟨⟨hne, hlt, le_trans hb3 hhl⟩, rfl, ?_⟩
    simp only [stepsLeft]
    have := size_lt_of_le_half hb4 (by omega : 1 ≤ hi - lo)
    omega
  · simp only [if_neg hlt]
    have hpos : narrowLo lo hi c ≤ sorted.length := by omega
    have hlen : (List.insertIdx (narrowLo lo hi c) x sorted).length = sorted.length + 1 :=
      List.length_insertIdx (narrowLo lo hi c) sorted hpos
    by_cases hre : rest.isEmpty
    · simp only [if_pos hre]
      refine ⟨trivial, rfl, ?_⟩
      simp only [stepsLeft]
      omega
    · simp only [if_neg hre]
      have hrne : rest ≠ [] := by
        intro hc
        rw [hc] at hre
        exact hre rfl
      refine ⟨⟨hrne, by omega, le_of_eq rfl⟩, rfl, ?_⟩
      obtain ⟨r0, hr0⟩ : ∃ r0, rest.length = r0 + 1 :=
        ⟨rest.length - 1, by cases rest with | nil => exact absurd rfl hrne | cons a t => simp⟩
      simp only [stepsLeft, hlen, List.length_append, List.length_cons, List.length_nil, hr0]
      have hunfold : restCost sorted.length (r0 + 1 + 1 - 1) =
          Nat.size (sorted.length + 1) + restCost (sorted.length + 1) r0 := rfl
      have heq : r0 + 1 - 1 = r0 := rfl
      rw [hunfold, heq, Nat.sub_zero]
      omega

theorem wf_step (c : Choice) (s : SortState T) (h : WF s) : WF (make_choice c s) := by
  match s with
  | SortState.Empty => exact trivial
  | SortState.Done l => exact trivial
  | SortState.Compare uns sorted lo hi => exact (step_progress c uns sorted lo hi h).1

/-- Any run out of a well-formed, non-`Empty` state is `Done` once its
decision budget is spent, whatever the decisions are. -/
theorem isDone_run (n : Nat) : ∀ (ds : Nat → Choice) (s : SortState T),
    WF s → isEmptyState s = false → stepsLeft s ≤ n → isDone (run ds n s) = true := by
  induction n with
  | zero =>
      intro ds s hwf hne hsl
      match s with
      | SortState.Empty => simp [isEmptyState] at hne
      | SortState.Done l => rfl
      | SortState.Compare uns sorted lo hi =>
          exfalso
          obtain ⟨h1, h2, h3⟩ := hwf
          have := Nat.size_pos.mpr (show 0 < hi - lo by omega)
          simp only [stepsLeft] at hsl
          omega
  | succ n ih =>
      intro ds s hwf hne hsl
      match s with
      | SortState.Empty => simp [isEmptyState] at hne
      | SortState.Done l =>
          show isDone (run _ n (make_choice (ds 0) (SortState.Done l))) = true
          rw [show make_choice (ds 0) (SortState.Done l) = SortState.Done l from rfl,
            run_done]
          rfl
      | SortState.Compare uns sorted lo hi =>
          obtain ⟨hwf2, hne2, hdec⟩ := step_progress (ds 0) uns sorted lo hi hwf
          exact ih _ _ hwf2 hne2 (by omega)

/-- Same as `isDone_run` for a run driven by a total order. -/
theorem isDone_oracleRun (n : Nat) : ∀ (gt : T → T → Bool) (s : SortState T),
    WF s → isEmptyState s = false → stepsLeft s ≤ n → isDone (oracleRun gt n s) = true := by
  induction n with
  | zero =>
      intro gt s hwf hne hsl
      match s with
      | SortState.Empty => simp [isEmptyState] at hne
      | SortState.Done l => rfl
      | SortState.Compare uns sorted lo hi =>
          exfalso
          obtain ⟨h1, h2, h3⟩ := hwf
          have := Nat.size_pos.mpr (show 0 < hi - lo by omega)
          simp only [stepsLeft] at hsl
          omega
  | succ n ih =>
      intro gt s hwf hne hsl
      match s with
      | SortState.Empty => simp [isEmptyState] at hne
      | SortState.Done l =>
          show isDone (oracleRun gt n (make_choice (oracleChoice gt (SortState.Done l))
            (SortState.Done l))) = true
          rw [show make_choice (oracleChoice gt (SortState.Done l)) (SortState.Done l) =
            SortState.Done l from rfl, oracleRun_done]
          rfl
      | SortState.Compare uns sorted lo hi =>
          obtain ⟨hwf2, hne2, hdec⟩ :=
            step_progress (oracleChoice gt (SortState.Compare uns sorted lo hi))
              uns sorted lo hi hwf
          exact ih _ _ hwf2 hne2 (by omega)

theorem reachable_wf (items : List T) (s : SortState T) (h : Reachable items s) :
    WF s := by
  induction h with
  | start =>
      rw [start_sorting_eq]
      match items with
      | [] => exact trivial
      | [x] => exact trivial
      | a :: b :: t =>
          exact ⟨List.cons_ne_nil b t, Nat.zero_lt_one, le_of_eq rfl⟩
  | step c s hr ih => exact wf_step c s ih

/-- One call preserves the multiset of items held by the state. -/
theorem contents_perm_step (c : Choice) (s : SortState T) (h : WF s) :
    List.Perm (contents (make_choice c s)) (contents s) := by
  match s with
  | SortState.Empty => exact List.Perm.refl _
  | SortState.Done l => exact List.Perm.refl _
  | SortState.Compare uns sorted lo hi =>
      obtain ⟨hne, hlh, hhl⟩ := h
      obtain ⟨rest, x, rfl⟩ := exists_concat_of_ne_nil _ hne
      rw [make_choice_compare_eq]
      obtain ⟨hb1, hb2, hb3, hb4, hb5⟩ := narrow_bounds lo hi c hlh
      by_cases hlt : narrowLo lo hi c < narrowHi lo hi c
      · simp only [if_pos hlt, contents]
        exact List.Perm.refl _
      · simp only [if_neg hlt]
        have hpos : narrowLo lo hi c ≤ sorted.length := by omega
        have hperm := perm_insertIdx x (narrowLo lo hi c) sorted hpos
        by_cases hre : rest.isEmpty
        · simp only [if_pos hre, contents]
          have hrnil : rest = [] := by
            cases rest with
            | nil => rfl
            | cons a t => exact absurd hre (by simp)
          subst hrnil
          simp only [List.nil_append]
          exact hperm.trans (List.perm_append_singleton x sorted).symm
        · simp only [if_neg hre, contents]
          have h1 : List.Perm (List.insertIdx (narrowLo lo hi c) x sorted ++ rest)
              ((x :: sorted) ++ rest) := hperm.append_right rest
          have h2 : List.Perm ((sorted ++ rest) ++ [x]) (x :: (sorted ++ rest)) :=
            List.perm_append_singleton x (sorted ++ rest)
          have h3 : sorted ++ (rest ++ [x]) = (sorted ++ rest) ++ [x] :=
            (List.append_assoc sorted rest [x]).symm
          rw [h3]
          exact h1.trans h2.symm

/-- The permutation invariant: every reachable state holds exactly the
items passed to `start_sorting`. -/
theorem reachable_contents_perm (items : List T) (s : SortState T)
    (h : Reachable items s) : List.Perm (contents s) items := by
  induction h with
  | start =>
      rw [start_sorting_eq]
      match items with
      | [] => exact List.Perm.refl _
      | [x] => exact List.Perm.refl _
      | a :: b :: t => exact List.Perm.refl _
  | step c s hr ih =>
      exact (contents_perm_step c s (reachable_wf items s hr)).trans ih

/-- In every reachable comparing state the pending stack is a prefix of
the input tail, in arrival order (items are only ever popped off its
end). -/
theorem reachable_pending_prefix (items : List T) (s : SortState T)
    (h : Reachable items s) :
    ∀ uns sorted lo hi, s = SortState.Compare uns sorted lo hi →
      ∃ k, uns = (items.drop 1).take k := by
  induction h with
  | start =>
      intro uns sorted lo hi heq
      rw [start_sorting_eq] at heq
      match items, heq with
      | a :: b :: t, heq =>
          refine ⟨(b :: t).length, ?_⟩
          have huns : uns = b :: t := by
            cases heq
            rfl
          rw [huns]
          simp
  | step c s0 hr ih =>
      intro uns sorted lo hi heq
      match s0, hr with
      | SortState.Empty, hr => exact absurd heq (by simp [make_choice])
      | SortState.Done l, hr => exact absurd heq (by simp [make_choice])
      | SortState.Compare uns0 sorted0 lo0 hi0, hr =>
          obtain ⟨hne, hlh, hhl⟩ := reachable_wf items _ hr
          obtain ⟨k, hk⟩ := ih uns0 sorted0 lo0 hi0 rfl
          obtain ⟨rest, x, hdecomp⟩ := exists_concat_of_ne_nil _ hne
          rw [hdecomp, make_choice_compare_eq] at heq
          by_cases hlt : narrowLo lo0 hi0 c < narrowHi lo0 hi0 c
          · rw [if_pos hlt] at heq
            cases heq
            exact ⟨k, hdecomp ▸ hk⟩
          · rw [if_neg hlt] at heq
            by_cases hre : rest.isEmpty
            · rw [if_pos hre] at heq
              exact absurd heq (by simp)
            · rw [if_neg hre] at heq
              cases heq
              have hrest : uns = uns0.dropLast := by
                rw [hdecomp]
                simp
              refine ⟨min ((((items.drop 1).take k)).length - 1) k, ?_⟩
              rw [hrest, hk, List.dropLast_eq_take, List.take_take]


/-! ### The run driven by a total order -/

/-- The ranking relation induced by the external comparison function. -/
def gtRel (gt : T → T → Bool) : T → T → Prop := fun a b => gt a b = true

/-- Inserting `x` at position `pos` preserves descending sortedness when
everything before `pos` outranks `x` and `x` outranks everything from
`pos` on. -/
theorem pairwise_insertIdx (gt : T → T → Bool) (x : T) (sorted : List T) (pos : Nat)
    (hpos : pos ≤ sorted.length)
    (hs : List.Pairwise (gtRel gt) sorted)
    (hb : ∀ i (h2 : i < sorted.length), i < pos → gt (sorted[i]) x = true)
    (ha : ∀ i (h2 : i < sorted.length), pos ≤ i → gt x (sorted[i]) = true) :
    List.Pairwise (gtRel gt) (List.insertIdx pos x sorted) := by
  rw [insertIdx_eq_take_cons_drop x pos sorted hpos]
  rw [List.pairwise_append]
  refine ⟨List.Pairwise.sublist (List.take_sublist pos sorted) hs, ?_, ?_⟩
  · rw [List.pairwise_cons]
    refine ⟨?_, List.Pairwise.sublist (List.drop_sublist pos sorted) hs⟩
    intro y hy
    obtain ⟨j, hj, rfl⟩ := List.mem_iff_getElem.mp hy
    rw [List.getElem_drop]
    have hjlt : pos + j < sorted.length := by
      have := List.length_drop pos sorted
      omega
    exact ha (pos + j) hjlt (Nat.le_add_right pos j)
  · intro a ha2 b hb2
    obtain ⟨i, hi, rfl⟩ := List.mem_iff_getElem.mp ha2
    have hilt : i < pos := by
      have := List.length_take pos sorted
      omega
    have hilen : i < sorted.length := by
      have := List.length_take pos sorted
      omega
    rw [List.getElem_take]
    rcases List.mem_cons.mp hb2 with hbx | hbd
    · subst hbx
      exact hb i hilen hilt
    · obtain ⟨j, hj, rfl⟩ := List.mem_iff_getElem.mp hbd
      rw [List.getElem_drop]
      have hjlt : pos + j < sorted.length := by
        have := List.length_drop pos sorted
        omega
      exact List.pairwise_iff_getElem.mp hs i (pos + j) hilen hjlt (by omega)

/-- The invariant of an oracle-driven run: the state holds a permutation
of the input, `sorted` is descending, and the current window brackets the
candidate (everything left of `lo` outranks it, it outranks everything
from `hi` on). -/
def OInv (gt : T → T → Bool) (items : List T) : SortState T → Prop
  | SortState.Empty => items = []
  | SortState.Done sorted =>
      List.Perm sorted items ∧ List.Pairwise (gtRel gt) sorted
  | SortState.Compare uns sorted lo hi =>
      List.Perm (sorted ++ uns) items ∧ uns ≠ [] ∧ lo < hi ∧ hi ≤ sorted.length ∧
      List.Pairwise (gtRel gt) sorted ∧
      ∀ x, uns.getLast? = some x →
        (∀ i (h2 : i < sorted.length), i < lo → gt x (sorted[i]) = false) ∧
        (∀ i (h2 : i < sorted.length), hi ≤ i → gt x (sorted[i]) = true)

theorem oInv_wf (gt : T → T → Bool) (items : List T) (s : SortState T)
    (h : OInv gt items s) : WF s := by
  match s with
  | SortState.Empty => exact trivial
  | SortState.Done l => exact trivial
  | SortState.Compare uns sorted lo hi => exact ⟨h.2.1, h.2.2.1, h.2.2.2.1⟩

theorem oInv_start (gt : T → T → Bool) (items : List T) (h2 : 2 ≤ items.length) :
    OInv gt items (start_sorting items) := by
  rw [start_sorting_eq]
  match items with
  | [] => simp at h2
  | [x] => simp at h2
  | a :: b :: t =>
      refine ⟨List.Perm.refl _, List.cons_ne_nil b t, Nat.zero_lt_one, le_of_eq rfl,
        List.pairwise_singleton _ a, ?_⟩
      intro x hx
      constructor
      · intro i hlen hi0
        omega
      · intro i hlen hi1
        simp only [List.length_singleton] at hlen
        omega

/-- Inserting the current candidate at a position bracketed by the
window conditions preserves the oracle invariant, for both the `Done`
and the reseeded `Compare` continuation. -/
theorem oInv_insert (gt : T → T → Bool) (items : List T) (hnd : items.Nodup)
    (rest sorted : List T) (x : T) (pos : Nat)
    (hperm : List.Perm (sorted ++ (rest ++ [x])) items)
    (hpos : pos ≤ sorted.length)
    (hsort : List.Pairwise (gtRel gt) sorted)
    (htot : ∀ a b, a ≠ b → gt a b = true ∨ gt b a = true)
    (hb : ∀ i (h2 : i < sorted.length), i < pos → gt x (sorted[i]) = false)
    (ha : ∀ i (h2 : i < sorted.length), pos ≤ i → gt x (sorted[i]) = true) :
    OInv gt items (if rest.isEmpty then SortState.Done (List.insertIdx pos x sorted)
      else SortState.Compare rest (List.insertIdx pos x sorted) 0
        (List.insertIdx pos x sorted).length) := by
  have hnd2 : (sorted ++ (rest ++ [x])).Nodup := (hperm.nodup_iff).mpr hnd
  have hxmem : x ∈ rest ++ [x] := by simp
  have hb2 : ∀ i (h2 : i < sorted.length), i < pos → gt (sorted[i]) x = true := by
    intro i h2 hip
    have hnex : sorted[i] ≠ x := by
      intro he
      have hdisj := (List.nodup_append.mp hnd2).2.2
      exact hdisj (he ▸ List.getElem_mem h2) hxmem
    rcases htot _ _ hnex with hgood | hbad
    · exact hgood
    · rw [hb i h2 hip] at hbad
      simp at hbad
  have hpair := pairwise_insertIdx gt x sorted pos hpos hsort hb2 ha
  have hlen := @List.length_insertIdx T x pos sorted hpos
  have hpermins := perm_insertIdx x pos sorted hpos
  by_cases hre : rest.isEmpty
  · rw [if_pos hre]
    have hrnil : rest = [] := by
      cases rest with
      | nil => rfl
      | cons a t => simp at hre
    subst hrnil
    refine ⟨?_, hpair⟩
    rw [List.nil_append] at hperm
    exact hpermins.trans ((List.perm_append_singleton x sorted).symm.trans hperm)
  · rw [if_neg hre]
    have hrne : rest ≠ [] := by
      intro hc
      rw [hc] at hre
      exact hre rfl
    refine ⟨?_, hrne, by omega, le_of_eq rfl, hpair, ?_⟩
    · have h1 : List.Perm (List.insertIdx pos x sorted ++ rest) ((x :: sorted) ++ rest) :=
        hpermins.append_right rest
      have h2 : List.Perm ((sorted ++ rest) ++ [x]) (x :: (sorted ++ rest)) :=
        List.perm_append_singleton x (sorted ++ rest)
      have h3 : List.Perm ((sorted ++ rest) ++ [x]) items := by
        rw [List.append_assoc]
        exact hperm
      exact h1.trans (h2.symm.trans h3)
    · intro x2 hx2
      constructor
      · intro i h2 hi0
        omega
      · intro i h2 hge
        omega

/-- One oracle-driven call preserves the invariant. -/
theorem oInv_step (gt : T → T → Bool) (items : List T) (hnd : items.Nodup)
    (htot : ∀ a b, a ≠ b → gt a b = true ∨ gt b a = true)
    (htrans : ∀ a b c2, gt a b = true → gt b c2 = true → gt a c2 = true)
    (s : SortState T) (h : OInv gt items s) :
    OInv gt items (make_choice (oracleChoice gt s) s) := by
  match s with
  | SortState.Empty => exact h
  | SortState.Done l => exact h
  | SortState.Compare uns sorted lo hi =>
      obtain ⟨hperm, hne, hlh, hhl, hsort, hwin⟩ := h
      obtain ⟨rest, x, rfl⟩ := exists_concat_of_ne_nil _ hne
      obtain ⟨hblo, hahi⟩ := hwin x (by simp)
      have hmidlt : (lo + hi) / 2 < sorted.length := by omega
      have hmidge : lo ≤ (lo + hi) / 2 := by omega
      have hchoice : oracleChoice gt (SortState.Compare (rest ++ [x]) sorted lo hi) =
          if gt x (sorted[(lo + hi) / 2]) then Choice.Left else Choice.Right := by
        simp [oracleChoice, List.getElem?_eq_getElem hmidlt]
      rw [hchoice]
      by_cases hgt : gt x (sorted[(lo + hi) / 2]) = true
      · rw [if_pos hgt, make_choice_compare_eq]
        have hnl : narrowLo lo hi Choice.Left = lo := rfl
        have hnh : narrowHi lo hi Choice.Left = (lo + hi) / 2 := rfl
        rw [hnl, hnh]
        have hcnew : ∀ i (h2 : i < sorted.length),
            (lo + hi) / 2 ≤ i → gt x (sorted[i]) = true := by
          intro i h2 hmi
          rcases Nat.eq_or_lt_of_le hmi with rfl | hlt2
          · exact hgt
          · have hpm := List.pairwise_iff_getElem.mp hsort ((lo + hi) / 2) i hmidlt h2 hlt2
            exact htrans x _ _ hgt hpm
        by_cases hlt : lo < (lo + hi) / 2
        · rw [if_pos hlt]
          refine ⟨hperm, hne, hlt, by omega, hsort, ?_⟩
          intro x2 hx2
          have hx2e : x = x2 := by
            have hlast : (rest ++ [x]).getLast? = some x := by simp
            rw [hlast] at hx2
            exact Option.some.inj hx2
          subst hx2e
          exact ⟨hblo, hcnew⟩
        · rw [if_neg hlt]
          exact oInv_insert gt items hnd rest sorted x lo hperm (by omega) hsort htot
            hblo (fun i h2 hge => hcnew i h2 (by omega))
      · rw [if_neg hgt, make_choice_compare_eq]
        have hgtf : gt x (sorted[(lo + hi) / 2]) = false := by
          cases hx : gt x (sorted[(lo + hi) / 2])
          · rfl
          · exact absurd hx hgt
        have hnl : narrowLo lo hi Choice.Right = (lo + hi) / 2 + 1 := rfl
        have hnh : narrowHi lo hi Choice.Right = hi := rfl
        rw [hnl, hnh]
        have hbnew : ∀ i (h2 : i < sorted.length),
            i < (lo + hi) / 2 + 1 → gt x (sorted[i]) = false := by
          intro i h2 hi2
          rcases Nat.lt_or_ge i lo with hl | hge
          · exact hblo i h2 hl
          · cases hx : gt x (sorted[i])
            · rfl
            · exfalso
              rcases Nat.eq_or_lt_of_le (show i ≤ (lo + hi) / 2 by omega) with rfl | hlt2
              · rw [hgtf] at hx
                simp at hx
              · have hpm := List.pairwise_iff_getElem.mp hsort i ((lo + hi) / 2) h2 hmidlt hlt2
                have hcontra := htrans x _ _ hx hpm
                rw [hgtf] at hcontra
                simp at hcontra
        by_cases hlt : (lo + hi) / 2 + 1 < hi
        · rw [if_pos hlt]
          refine ⟨hperm, hne, hlt, hhl, hsort, ?_⟩
          intro x2 hx2
          have hx2e : x = x2 := by
            have hlast : (rest ++ [x]).getLast? = some x := by simp
            rw [hlast] at hx2
            exact Option.some.inj hx2
          subst hx2e
          exact ⟨hbnew, hahi⟩
        · rw [if_neg hlt]
          exact oInv_insert gt items hnd rest sorted x ((lo + hi) / 2 + 1) hperm
            (by omega) hsort htot (fun i h2 hlt2 => hbnew i h2 hlt2)
            (fun i h2 hge => hahi i h2 (by omega))

/-- The oracle invariant is preserved by any number of oracle-driven
calls. -/
theorem oInv_oracleRun (gt : T → T → Bool) (items : List T) (hnd : items.Nodup)
    (htot : ∀ a b, a ≠ b → gt a b = true ∨ gt b a = true)
    (htrans : ∀ a b c2, gt a b = true → gt b c2 = true → gt a c2 = true) :
    ∀ (n : Nat) (s : SortState T), OInv gt items s →
      OInv gt items (oracleRun gt n s) := by
  intro n
  induction n with
  | zero => intro s h; exact h
  | succ n ih => intro s h; exact ih _ (oInv_step gt items hnd htot htrans s h)

theorem start_not_empty (items : List T) (h : items ≠ []) :
    isEmptyState (start_sorting items) = false := by
  rw [start_sorting_eq]
  match items with
  | [] => exact absurd rfl h
  | [x] => rfl
  | a :: b :: t => rfl

theorem stepsLeft_start_le (items : List T) :
    stepsLeft (start_sorting items) ≤ decisionBound items.length := by
  rw [start_sorting_eq]
  match items with
  | [] => exact Nat.zero_le _
  | [x] => exact Nat.zero_le _
  | a :: b :: t =>
      have h2 := restCost_decisionBound t.length 1
      have hc : Nat.clog 2 1 = 0 := Nat.clog_one_right 2
      have hd : Nat.clog 2 2 = 1 := Nat.clog_eq_one (le_refl 2) (le_refl 2)
      have h3 : decisionBound (1 + 1) = 1 := by simp [decisionBound, hc, hd]
      have hs1 : Nat.size 1 = 1 := Nat.size_one
      have hx : 1 + t.length + 1 = t.length + 1 + 1 := by omega
      rw [hx] at h2
      simp only [stepsLeft, List.length_cons, List.length_nil, Nat.zero_add,
        Nat.add_sub_cancel, Nat.sub_zero]
      omega


theorem run_empty (ds : Nat → Choice) (m : Nat) :
    run ds m (SortState.Empty : SortState T) = SortState.Empty := by
  induction m generalizing ds with
  | zero => rfl
  | succ m ih => exact ih _

/-- From an open window `[lo, hi)`, any sequence of decisions pops and
places the current candidate within `Nat.size (hi - lo)` calls: the run
is then `Done`, or `Comparing` with the candidate gone from the top of
the pending stack, one more placed item, and the window reseeded to the
whole of `placed`. -/
theorem insert_phase (w : Nat) : ∀ (ds : Nat → Choice) (uns sorted : List T) (lo hi : Nat),
    uns ≠ [] → lo < hi → hi ≤ sorted.length → Nat.size (hi - lo) ≤ w →
    ∃ m, m ≤ w ∧
      ((∃ l2, run ds m (SortState.Compare uns sorted lo hi) = SortState.Done l2 ∧
          l2.length = sorted.length + 1) ∨
       (∃ sorted2, run ds m (SortState.Compare uns sorted lo hi) =
          SortState.Compare uns.dropLast sorted2 0 sorted2.length ∧
          sorted2.length = sorted.length + 1)) := by
  induction w with
  | zero =>
      intro ds uns sorted lo hi hne hlh hhl hsz
      exfalso
      have h0 : Nat.size (hi - lo) = 0 := Nat.le_zero.mp hsz
      have := Nat.size_eq_zero.mp h0
      omega
  | succ w ih =>
      intro ds uns sorted lo hi hne hlh hhl hsz
      obtain ⟨rest, x, rfl⟩ := exists_concat_of_ne_nil _ hne
      obtain ⟨hb1, hb2, hb3, hb4, hb5⟩ := narrow_bounds lo hi (ds 0) hlh
      have hd : (rest ++ [x]).dropLast = rest := by simp
      by_cases hlt : narrowLo lo hi (ds 0) < narrowHi lo hi (ds 0)
      · have hsz2 : Nat.size (narrowHi lo hi (ds 0) - narrowLo lo hi (ds 0)) ≤ w := by
          have := size_lt_of_le_half hb4 (by omega : 1 ≤ hi - lo)
          omega
        obtain ⟨m, hm, hres⟩ := ih (fun i => ds (i + 1)) (rest ++ [x]) sorted
          (narrowLo lo hi (ds 0)) (narrowHi lo hi (ds 0)) hne hlt
          (le_trans hb3 hhl) hsz2
        refine ⟨m + 1, by omega, ?_⟩
        have heq : run ds (m + 1) (SortState.Compare (rest ++ [x]) sorted lo hi) =
            run (fun i => ds (i + 1)) m (make_choice (ds 0)
              (SortState.Compare (rest ++ [x]) sorted lo hi)) := rfl
        rw [heq, make_choice_compare_eq, if_pos hlt]
        exact hres
      · have hpos : narrowLo lo hi (ds 0) ≤ sorted.length := by omega
        have hlen := @List.length_insertIdx T x (narrowLo lo hi (ds 0)) sorted hpos
        refine ⟨1, by omega, ?_⟩
        have heq : run ds 1 (SortState.Compare (rest ++ [x]) sorted lo hi) =
            make_choice (ds 0) (SortState.Compare (rest ++ [x]) sorted lo hi) := rfl
        rw [heq, make_choice_compare_eq, if_neg hlt]
        by_cases hre : rest.isEmpty
        · rw [if_pos hre]
          exact Or.inl ⟨_, rfl, hlen⟩
        · rw [if_neg hre]
          refine Or.inr ⟨List.insertIdx (narrowLo lo hi (ds 0)) x sorted, ?_, hlen⟩
          rw [hd]

/-! ### The claims -/

/-- C3 counterexample: `make_choice` called in `Empty` (and in `Done`) is
silently ignored, not surfaced as a failure.  The Rust method returns
`()` unconditionally — its result carries no error channel at all, which
the embedding reflects by returning only the (unchanged) state — so no
"observable error result" exists, contradicting the claim. -/
theorem C3_counterexample :
    make_choice Choice.Left (SortState.Empty : SortState Nat) = SortState.Empty ∧
    make_choice Choice.Right (SortState.Done [1] : SortState Nat) = SortState.Done [1] :=
  ⟨rfl, rfl⟩

/-- C3 (amended): calling `choose` while the state is `Empty` or `Done`
is silently ignored — the state is left unchanged and no failure is
surfaced to the caller (`make_choice` matches these states to `()`). -/
theorem C3_amended (c : Choice) (s : SortState T)
    (h : isEmptyState s = true ∨ isDone s = true) : make_choice c s = s := by
  match s with
  | SortState.Empty => rfl
  | SortState.Done l => rfl
  | SortState.Compare uns sorted lo hi =>
      rcases h with h | h <;> simp [isEmptyState, isDone] at h

/-- Witness for C3 (amended) at the concrete state `Done [7]`. -/
theorem C3_amended_witness :
    make_choice Choice.Left (SortState.Done [7] : SortState Nat) = SortState.Done [7] :=
  C3_amended Choice.Left (SortState.Done [7]) (Or.inr rfl)

/-- C5 counterexample: after `start_sorting [0, 1, 2]` the state is
`Comparing` with `placed = [0]` and pending items `1, 2` (`2` on top, the
most recently arrived).  `finish_sorting` writes `[0, 1, 2]` — the
pending portion `1, 2` is in original arrival order — and not
`[0, 2, 1]`, the claimed reversed-remainder (most-recent-first) order. -/
theorem C5_counterexample :
    finish_sorting (start_sorting ([0, 1, 2] : List Nat)) [] = [0, 1, 2] ∧
    finish_sorting (start_sorting ([0, 1, 2] : List Nat)) [] ≠ [0, 2, 1] := by
  constructor
  · rfl
  · decide

/-- C5 (amended): during `Comparing`, `finish_sorting` writes the pending
portion in the pending vector's bottom-to-top order, which is those
items' original arrival order (a prefix of the input tail; the most
recently arrived remaining item comes last, not first). -/
theorem C5_amended (items out uns sorted : List T) (lo hi : Nat)
    (h : Reachable items (SortState.Compare uns sorted lo hi)) :
    finish_sorting (SortState.Compare uns sorted lo hi) out = sorted ++ uns ∧
    ∃ k, uns = (items.drop 1).take k :=
  ⟨rfl, reachable_pending_prefix items _ h uns sorted lo hi rfl⟩

/-- Witness for C5 (amended) at the start state of a 3-item run. -/
theorem C5_amended_witness :
    finish_sorting (SortState.Compare [1, 2] [0] 0 1 : SortState Nat) [] = [0] ++ [1, 2] ∧
    ∃ k, ([1, 2] : List Nat) = (([0, 1, 2] : List Nat).drop 1).take k :=
  C5_amended [0, 1, 2] [] [1, 2] [0] 0 1 Reachable.start

/-- C6: `start_sorting` always succeeds; `[]` gives `Empty`, a singleton
gives `Done` with `placed` equal to the input (so no comparison is ever
requested: the current candidate of a non-`Comparing` state is `none`),
and otherwise the first item seeds `placed`, the tail becomes the pending
stack in arrival order with the last input element on top (the current
candidate, so candidates are processed in reverse arrival order), with
`lo = 0` and `hi = 1`. -/
theorem C6_start (items : List T) :
    start_sorting items = (match items with
      | [] => SortState.Empty
      | [x] => SortState.Done [x]
      | first :: rest => SortState.Compare rest [first] 0 1) ∧
    currentItem (start_sorting items) =
      (if 2 ≤ items.length then (items.drop 1).getLast? else none) := by
  refine ⟨start_sorting_eq items, ?_⟩
  rw [start_sorting_eq]
  match items with
  | [] => rfl
  | [x] => rfl
  | a :: b :: t =>
      have hc : 2 ≤ (a :: b :: t).length := by simp
      rw [if_pos hc]
      rfl

/-- C7: on a `Comparing` state with a current candidate, `choose`
computes `mid = (lo + hi) / 2` by floor division and sets `hi = mid` on
candidate-wins (`Left`) and `lo = mid + 1` on pivot-wins (`Right`) —
packaged as `narrowLo`/`narrowHi`.  If the window stays open the state
remains `Comparing` with the same stacks (hence the same candidate); if
it collapses, the candidate is popped off the top of `pending` and
inserted into `placed` at index `lo`, the state becoming `Done` when
`pending` empties and otherwise `Comparing` with `lo = 0` and
`hi = length placed`. -/
theorem C7_choose_step (c : Choice) (uns sorted : List T) (lo hi : Nat)
    (h1 : uns ≠ []) :
    (narrowLo lo hi c < narrowHi lo hi c →
      make_choice c (SortState.Compare uns sorted lo hi) =
        SortState.Compare uns sorted (narrowLo lo hi c) (narrowHi lo hi c)) ∧
    (narrowLo lo hi c = narrowHi lo hi c →
      make_choice c (SortState.Compare uns sorted lo hi) =
        (match uns.getLast? with
         | none => SortState.Done sorted
         | some x =>
            if uns.dropLast.isEmpty then
              SortState.Done (List.insertIdx (narrowLo lo hi c) x sorted)
            else
              SortState.Compare uns.dropLast
                (List.insertIdx (narrowLo lo hi c) x sorted) 0
                (List.insertIdx (narrowLo lo hi c) x sorted).length)) := by
  obtain ⟨rest, x, rfl⟩ := exists_concat_of_ne_nil _ h1
  rw [make_choice_compare_eq]
  have hl : (rest ++ [x]).getLast? = some x := by simp
  have hd : (rest ++ [x]).dropLast = rest := by simp
  constructor
  · intro hlt
    rw [if_pos hlt]
  · intro heq
    rw [if_neg (by omega), hl, hd]

/-- Witness for C7 at the state `Compare [5] [3, 1] 0 2` with decision
`Left`: the window narrows to `[0, 1)` and stays open. -/
theorem C7_choose_step_witness :
    (narrowLo 0 2 Choice.Left < narrowHi 0 2 Choice.Left →
      make_choice Choice.Left (SortState.Compare [5] [3, 1] 0 2 : SortState Nat) =
        SortState.Compare [5] [3, 1] (narrowLo 0 2 Choice.Left) (narrowHi 0 2 Choice.Left)) ∧
    (narrowLo 0 2 Choice.Left = narrowHi 0 2 Choice.Left →
      make_choice Choice.Left (SortState.Compare [5] [3, 1] 0 2 : SortState Nat) =
        (match ([5] : List Nat).getLast? with
         | none => SortState.Done [3, 1]
         | some x =>
            if ([5] : List Nat).dropLast.isEmpty then
              SortState.Done (List.insertIdx (narrowLo 0 2 Choice.Left) x [3, 1])
            else
              SortState.Compare ([5] : List Nat).dropLast
                (List.insertIdx (narrowLo 0 2 Choice.Left) x [3, 1]) 0
                (List.insertIdx (narrowLo 0 2 Choice.Left) x [3, 1]).length)) :=
  C7_choose_step Choice.Left [5] [3, 1] 0 2 (by decide)

/-- C8: `finish_sorting` writes `placed` on `Done`, leaves the buffer
untouched on `Empty`, and writes `placed ++ pending` (the pending vector
in its internal order) on `Comparing`; it never changes the state (the
Rust method only reads `&self.state`, which the embedding reflects by
returning only the buffer), so a second call on the same state writes
the same output. -/
theorem C8_finish (s : SortState T) (out : List T) :
    (isEmptyState s = true → finish_sorting s out = out) ∧
    (isEmptyState s = false → finish_sorting s out = contents s) ∧
    finish_sorting s (finish_sorting s out) = finish_sorting s out := by
  match s with
  | SortState.Empty =>
      exact ⟨fun _ => rfl, fun h => by simp [isEmptyState] at h, rfl⟩
  | SortState.Done l =>
      exact ⟨fun h => by simp [isEmptyState] at h, fun _ => rfl, rfl⟩
  | SortState.Compare uns sorted lo hi =>
      exact ⟨fun h => by simp [isEmptyState] at h, fun _ => rfl, rfl⟩

/-- Witness for C8 at a concrete `Comparing` state and buffer. -/
theorem C8_finish_witness :
    (isEmptyState (SortState.Compare [2] [1] 0 1 : SortState Nat) = true →
      finish_sorting (SortState.Compare [2] [1] 0 1 : SortState Nat) [9] = [9]) ∧
    (isEmptyState (SortState.Compare [2] [1] 0 1 : SortState Nat) = false →
      finish_sorting (SortState.Compare [2] [1] 0 1 : SortState Nat) [9] =
        contents (SortState.Compare [2] [1] 0 1)) ∧
    finish_sorting (SortState.Compare [2] [1] 0 1 : SortState Nat)
        (finish_sorting (SortState.Compare [2] [1] 0 1) [9]) =
      finish_sorting (SortState.Compare [2] [1] 0 1) [9] :=
  C8_finish (SortState.Compare [2] [1] 0 1) [9]

/-- C10: `make_choice` on `Empty` or `Done` is an exact no-op: the state
value is unchanged (same variant, same `placed`), with no other
observable effect (the Rust method returns `()`). -/
theorem C10_choose_noop (c : Choice) (l : List T) :
    make_choice c (SortState.Empty : SortState T) = SortState.Empty ∧
    make_choice c (SortState.Done l) = SortState.Done l :=
  ⟨rfl, rfl⟩

/-- C2 counterexample: for the empty input the claimed bound is 0, but
after 0 `choose` calls the run is in `Empty`, not `Done` — a run started
with no items never reaches `Done`, so "the run reaches Done" fails for
`n = 0`. -/
theorem C2_counterexample :
    isDone (run (fun _ => Choice.Left) (decisionBound ([] : List Nat).length)
      (start_sorting ([] : List Nat))) = false := rfl

/-- C2 (amended): for every input of `n ≥ 1` items and every decision
sequence, after `Σ_{k=2}^{n} ceil(log2 k)` `choose` calls the state is
`Done` (and `Done` is absorbing, so the run reached `Done` after at most
that many calls made while `Comparing`); for `n = 0` the state is
`Empty` and stays `Empty` under every sequence of `choose` calls, so no
comparison is ever requested and `Done` is never reached.  The last
conjunct is the per-item clause: inserting the k-th item (`k =
length placed + 1 ≥ 2`) into the `k - 1` items already placed — a
`Comparing` state whose window spans all of `placed` — takes at most
`ceil(log2 k) = Nat.clog 2 k` comparisons, whatever the decisions:
within that many calls the candidate is popped off `pending` and placed,
leaving `Done` or a reseeded `Comparing` state with one more placed
item. -/
theorem C2_decision_bound (items : List T) (ds : Nat → Choice) :
    (items ≠ [] →
      isDone (run ds (decisionBound items.length) (start_sorting items)) = true) ∧
    (items = [] → ∀ m, run ds m (start_sorting items) = SortState.Empty) ∧
    (∀ (uns sorted : List T), uns ≠ [] → sorted ≠ [] →
      ∃ m, m ≤ Nat.clog 2 (sorted.length + 1) ∧
        ((∃ l2, run ds m (SortState.Compare uns sorted 0 sorted.length) =
            SortState.Done l2 ∧ l2.length = sorted.length + 1) ∨
         (∃ sorted2, run ds m (SortState.Compare uns sorted 0 sorted.length) =
            SortState.Compare uns.dropLast sorted2 0 sorted2.length ∧
            sorted2.length = sorted.length + 1))) := by
  refine ⟨?_, ?_, ?_⟩
  · intro h
    exact isDone_run (decisionBound items.length) ds (start_sorting items)
      (reachable_wf items _ Reachable.start) (start_not_empty items h)
      (stepsLeft_start_le items)
  · intro h m
    subst h
    exact run_empty ds m
  · intro uns sorted huns hsorted
    have hlen0 : 0 < sorted.length := List.length_pos.mpr hsorted
    have hsz : Nat.size (sorted.length - 0) ≤ Nat.clog 2 (sorted.length + 1) := by
      rw [Nat.sub_zero, size_eq_clog]
    exact insert_phase (Nat.clog 2 (sorted.length + 1)) ds uns sorted 0 sorted.length
      huns hlen0 (le_refl _) hsz

/-- Witness for C2 (amended): the 3-item run `[3, 1, 2]` with all-`Right`
decisions. -/
theorem C2_decision_bound_witness :
    (([3, 1, 2] : List Nat) ≠ [] →
      isDone (run (fun _ => Choice.Right) (decisionBound ([3, 1, 2] : List Nat).length)
        (start_sorting ([3, 1, 2] : List Nat))) = true) ∧
    (([3, 1, 2] : List Nat) = [] →
      ∀ m, run (fun _ => Choice.Right) m (start_sorting ([3, 1, 2] : List Nat)) =
        SortState.Empty) ∧
    (∀ (uns sorted : List Nat), uns ≠ [] → sorted ≠ [] →
      ∃ m, m ≤ Nat.clog 2 (sorted.length + 1) ∧
        ((∃ l2, run (fun _ => Choice.Right) m
            (SortState.Compare uns sorted 0 sorted.length) =
            SortState.Done l2 ∧ l2.length = sorted.length + 1) ∨
         (∃ sorted2, run (fun _ => Choice.Right) m
            (SortState.Compare uns sorted 0 sorted.length) =
            SortState.Compare uns.dropLast sorted2 0 sorted2.length ∧
            sorted2.length = sorted.length + 1))) :=
  C2_decision_bound [3, 1, 2] (fun _ => Choice.Right)

/-- C4: every reachable state holds exactly the input items: during
`Comparing`, `placed ++ pending` (the state's `contents`) is a
permutation of the input; in `Done`, `placed` alone is (`Empty` is only
reachable for the empty input, where `contents` is also `[]`).  Nothing
is duplicated or dropped, so `finish_sorting` called once the run is
`Done` writes a permutation of the input.  `finish_sorting` never
changes the state, so interleaved `finish` calls cannot break this. -/
theorem C4_permutation_invariant (items out : List T) (s : SortState T)
    (h : Reachable items s) :
    List.Perm (contents s) items ∧
    (isDone s = true → List.Perm (finish_sorting s out) items) := by
  have hc := reachable_contents_perm items s h
  refine ⟨hc, fun hd => ?_⟩
  match s, hc, hd with
  | SortState.Done l, hc, _ => exact hc
  | SortState.Empty, hc, hd => exact absurd hd (by simp [isDone])
  | SortState.Compare a b c d, hc, hd => exact absurd hd (by simp [isDone])

/-- Witness for C4 after one collapsing decision on a 2-item run (the
state is then `Done [2, 1]`). -/
theorem C4_permutation_invariant_witness :
    List.Perm (contents (make_choice Choice.Left (start_sorting ([1, 2] : List Nat)))) [1, 2] ∧
    (isDone (make_choice Choice.Left (start_sorting ([1, 2] : List Nat))) = true →
      List.Perm (finish_sorting (make_choice Choice.Left (start_sorting ([1, 2] : List Nat))) [])
        [1, 2]) :=
  C4_permutation_invariant [1, 2] [] _ (Reachable.step Choice.Left _ Reachable.start)

/-- C9: every reachable `Comparing` state satisfies
`0 ≤ lo ≤ hi ≤ length placed`, and each decision strictly shrinks the
window: for either choice the narrowed window `narrowHi - narrowLo` is
strictly smaller than `hi - lo` (when it reaches 0 the very same call
inserts the candidate and reseeds the window, per C7). -/
theorem C9_window_invariant (items uns sorted : List T) (lo hi : Nat)
    (h : Reachable items (SortState.Compare uns sorted lo hi)) :
    lo ≤ hi ∧ hi ≤ sorted.length ∧
    ∀ c, narrowHi lo hi c - narrowLo lo hi c < hi - lo := by
  obtain ⟨hne, hlh, hhl⟩ := reachable_wf items _ h
  exact ⟨Nat.le_of_lt hlh, hhl, fun c => (narrow_bounds lo hi c hlh).2.2.2.2⟩

/-- Witness for C9 at the start state of a 3-item run. -/
theorem C9_window_invariant_witness :
    0 ≤ 1 ∧ 1 ≤ ([0] : List Nat).length ∧
    ∀ c, narrowHi 0 1 c - narrowLo 0 1 c < 1 - 0 :=
  C9_window_invariant [0, 1, 2] [1, 2] [0] 0 1 Reachable.start

/-- C1: start the machine on `n ≥ 2` distinct items and feed it, at every
`Comparing` state, the decision generated by a strict total order `gt`
(candidate-wins exactly when `gt candidate pivot`, with the pivot
`placed[(lo + hi) / 2]`).  After `decisionBound n` calls — within which
the run reaches `Done`, `Done` being absorbing — the final `placed` is
the descending sort of the input by `gt`: a permutation of the input
that is strictly descending, and (last conjunct) the unique such list. -/
theorem C1_total_order_sorts (items : List T) (gt : T → T → Bool)
    (hlen : 2 ≤ items.length) (hnd : items.Nodup)
    (htot : ∀ a b, a ≠ b → gt a b = true ∨ gt b a = true)
    (hasym : ∀ a b, gt a b = true → gt b a = false)
    (htrans : ∀ a b c2, gt a b = true → gt b c2 = true → gt a c2 = true) :
    isDone (oracleRun gt (decisionBound items.length) (start_sorting items)) = true ∧
    List.Perm (doneList (oracleRun gt (decisionBound items.length) (start_sorting items)))
      items ∧
    List.Pairwise (gtRel gt)
      (doneList (oracleRun gt (decisionBound items.length) (start_sorting items))) ∧
    ∀ l, List.Perm l items → List.Pairwise (gtRel gt) l →
      doneList (oracleRun gt (decisionBound items.length) (start_sorting items)) = l := by
  have hstart := oInv_start gt items hlen
  have hfin := oInv_oracleRun gt items hnd htot htrans (decisionBound items.length) _ hstart
  have hdone : isDone (oracleRun gt (decisionBound items.length) (start_sorting items)) =
      true := by
    apply isDone_oracleRun
    · exact reachable_wf items _ Reachable.start
    · refine start_not_empty items ?_
      intro hc
      rw [hc] at hlen
      simp at hlen
    · exact stepsLeft_start_le items
  obtain ⟨l, hl⟩ : ∃ l, oracleRun gt (decisionBound items.length) (start_sorting items) =
      SortState.Done l := by
    match hfin3 : oracleRun gt (decisionBound items.length) (start_sorting items) with
    | SortState.Done l => exact ⟨l, rfl⟩
    | SortState.Empty => rw [hfin3] at hdone; simp [isDone] at hdone
    | SortState.Compare a b c2 d => rw [hfin3] at hdone; simp [isDone] at hdone
  rw [hl] at hfin hdone ⊢
  obtain ⟨hperm, hpair⟩ := hfin
  refine ⟨hdone, hperm, hpair, ?_⟩
  intro l2 hl2 hp2
  haveI : IsAntisymm T (gtRel gt) :=
    ⟨fun a b h1 h2 => by
      have h2b : gt b a = true := h2
      rw [hasym a b h1] at h2b
      simp at h2b⟩
  exact List.eq_of_perm_of_sorted (hperm.trans hl2.symm) hpair hp2

/-- Witness for C1: the strict order `b < a` on `Fin 3` sorts `[0, 2, 1]`
into `[2, 1, 0]`. -/
theorem C1_total_order_sorts_witness :
    isDone (oracleRun (fun a b : Fin 3 => decide (b < a))
      (decisionBound ([0, 2, 1] : List (Fin 3)).length) (start_sorting [0, 2, 1])) = true ∧
    List.Perm (doneList (oracleRun (fun a b : Fin 3 => decide (b < a))
      (decisionBound ([0, 2, 1] : List (Fin 3)).length) (start_sorting [0, 2, 1])))
      [0, 2, 1] ∧
    List.Pairwise (gtRel (fun a b : Fin 3 => decide (b < a)))
      (doneList (oracleRun (fun a b : Fin 3 => decide (b < a))
        (decisionBound ([0, 2, 1] : List (Fin 3)).length) (start_sorting [0, 2, 1]))) ∧
    ∀ l, List.Perm l [0, 2, 1] →
      List.Pairwise (gtRel (fun a b : Fin 3 => decide (b < a))) l →
      doneList (oracleRun (fun a b : Fin 3 => decide (b < a))
        (decisionBound ([0, 2, 1] : List (Fin 3)).length) (start_sorting [0, 2, 1])) = l :=
  C1_total_order_sorts [0, 2, 1] (fun a b : Fin 3 => decide (b < a))
    (by decide) (by decide) (by decide) (by decide) (by decide)

end PrioritySorter
